import Mathlib

/-!
Verification of the catalog-reconstruction and publishing helpers of
`lm_eval/logging/evaluation_tracker.py`.

The Python code is shallowly embedded: Python strings become `String`
(compared and transformed via their character lists, which matches
Python's code-point semantics for the ASCII data handled here), the
`MetadataConfigs` dictionary becomes an insertion-ordered association
list, and the bodies of `recreate_metadata_card`, `sanitize_list` and
the task-hash computation of `save_results_aggregated` become pure
functions.  Failure points of the Python code (`max()` on an empty
sequence, indexing an empty list) are modelled with `Except`.
-/

namespace Tracker

/-- Code point of a character; Python compares strings by code point. -/
def cv (c : Char) : Nat := c.toNat

/-- Python string `<` on character lists: lexicographic by code point, a
proper prefix is smaller. -/
def ltL : List Char → List Char → Bool
  | [], [] => false
  | [], _ :: _ => true
  | _ :: _, [] => false
  | a :: as, b :: bs =>
    if cv a < cv b then true else if cv b < cv a then false else ltL as bs

/-- Python `max(x, y)` on strings: returns `y` exactly when `x < y`
(the first argument is kept on ties). -/
def pymax (x y : String) : String := if ltL x.data y.data then y else x

/-- Python `x <= y` on strings. -/
def pyLe (x y : String) : Bool := ! ltL y.data x.data

/-- Index of the first occurrence of a character, if any. -/
def idxOf? (c : Char) : List Char → Option Nat
  | [] => none
  | a :: as => if a == c then some 0 else (idxOf? c as).map (· + 1)

/-- Python `str.find` for a single-character needle: first index or `-1`. -/
def pyFind (c : Char) (l : List Char) : Int :=
  match idxOf? c l with
  | none => -1
  | some i => i

/-- Python `str.rfind` for a single-character needle: last index or `-1`. -/
def pyRFind (c : Char) (l : List Char) : Int :=
  match idxOf? c l.reverse with
  | none => -1
  | some i => ((l.length - 1 - i : Nat) : Int)

/-- Clamp a (possibly negative) Python slice index into `[0, n]`. -/
def sliceIdx (n : Nat) (i : Int) : Nat :=
  if i < 0 then ((n : Int) + i).toNat else min i.toNat n

/-- Python slice `l[a:b]` with Python's negative-index and clamping rules. -/
def pySlice (l : List Char) (a b : Int) : List Char :=
  (l.take (sliceIdx l.length b)).drop (sliceIdx l.length a)

/-- Whether `p` is a leading segment of `l`. -/
def startsL : List Char → List Char → Bool
  | [], _ => true
  | _ :: _, [] => false
  | p :: ps, c :: cs => p == c && startsL ps cs

/-- Whether `pat` occurs contiguously inside `l` (Python's `pat in s`). -/
def containsL (pat : List Char) : List Char → Bool
  | [] => startsL pat []
  | c :: cs => startsL pat (c :: cs) || containsL pat cs

/-- Python `pat in s` on strings. -/
def pyContains (s pat : String) : Bool := containsL pat.data s.data

/-- Python `s.replace(".json", "")`: removes every occurrence of `.json`,
scanning left to right without overlap. -/
def replJson : List Char → List Char
  | [] => []
  | '.' :: 'j' :: 's' :: 'o' :: 'n' :: cs => replJson cs
  | c :: cs => c :: replJson cs

/-- Python `s.replace(":", "-")` (evaluation_tracker.py line 399). -/
def replColon (s : String) : String :=
  ⟨s.data.map (fun c => if c == ':' then '-' else c)⟩

/-- `get_file_task_name` (lines 289-290):
`filename[filename.find("_") + 1 : filename.rfind("_")]`. -/
def getFileTaskName (filename : String) : String :=
  ⟨pySlice filename.data (pyFind '_' filename.data + 1) (pyRFind '_' filename.data)⟩

/-- `get_file_datetime` (lines 292-293):
`filename[filename.rfind("_") + 1 :].replace(".json", "")`. -/
def getFileDatetime (filename : String) : String :=
  ⟨replJson (pySlice filename.data (pyRFind '_' filename.data + 1) (filename.data.length : Int))⟩

/-- `os.path.basename` on POSIX: everything after the last `/`. -/
def baseName (f : String) : String :=
  ⟨pySlice f.data (pyRFind '/' f.data + 1) (f.data.length : Int)⟩

/-- ASCII model of the regex class `\w`: letters, digits and underscore. -/
def isWordChar (c : Char) : Bool := c.isAlphanum || c == '_'

/-- `re.sub(r"\W", "_", s)` (line 344): every non-word character becomes `_`. -/
def sanW (s : String) : String :=
  ⟨s.data.map (fun c => if isWordChar c then c else '_')⟩

/-- `re.sub(r"[^\w\.]", "_", s)` (lines 326, 328, 347): every character that
is neither a word character nor a dot becomes `_`. -/
def sanT (s : String) : String :=
  ⟨s.data.map (fun c => if isWordChar c || c == '.' then c else '_')⟩

/-- `datetime.min.isoformat()`, the `defaultdict` seed of line 306. -/
def seedTs : String := "0001-01-01T00:00:00"

/-- One `{"split": ..., "path": [...]}` record of a `data_files` list. -/
structure Entry where
  split : String
  path : List String
  deriving DecidableEq, Repr

/-- A `data_files` list: the value stored for one config name. -/
abbrev Config := List Entry

/-- The `MetadataConfigs` dictionary: an insertion-ordered association list
from config names to `data_files` lists. -/
abbrev CardMetadata := List (String × Config)

/-- Python `dict.get(k, d)` on an insertion-ordered association list. -/
def getD {α : Type} : List (String × α) → String → α → α
  | [], _, d => d
  | (k', v) :: m, k, d => if k' == k then v else getD m k d

/-- Python `dict[k] = v`: update the existing key in place, else append. -/
def setK {α : Type} : List (String × α) → String → α → List (String × α)
  | [], k, v => [(k, v)]
  | (k', v') :: m, k, v => if k' == k then (k', v) :: m else (k', v') :: setK m k v

/-- Case split used by the listing (lines 300-301): files whose full path
contains `/results_` and `.json`. -/
def resultsFiles (files : List String) : List String :=
  files.filter (fun f => pyContains f "/results_" && pyContains f ".json")

/-- Files whose full path contains `/samples_` and `.json` (line 301). -/
def sampleFiles (files : List String) : List String :=
  files.filter (fun f => pyContains f "/samples_" && pyContains f ".json")

/-- Task name parsed from the basename of a listed file. -/
def taskOf (f : String) : String := getFileTaskName (baseName f)

/-- Timestamp parsed from the basename of a listed file. -/
def dateOf (f : String) : String := getFileDatetime (baseName f)

/-- Sanitized task name (`task_name_sanitized`, line 344). -/
def taskS (f : String) : String := sanW (taskOf f)

/-- Sanitized timestamp (`eval_date_sanitized`, lines 326/345). -/
def dateS (f : String) : String := sanT (dateOf f)

/-- `os.path.join("**", basename)` (lines 327/346). -/
def pathOf (f : String) : String := "**/" ++ baseName f

/-- The `latest_task_results_datetime` defaultdict after the loop of lines
308-314: for each parsed task name, the running Python `max` of the seed
`datetime.min.isoformat()` and the task's parsed timestamps, in listing
order. -/
def latestMap (sf : List String) : List (String × String) :=
  sf.foldl (fun m f => setK m (taskOf f) (pymax (getD m (taskOf f) seedTs) (dateOf f))) []

/-- `max(dict.values())` (line 317); `none` models the `ValueError` Python
raises on an empty sequence. -/
def maxVals : List (String × String) → Option String
  | [] => none
  | (_, v) :: m => some (m.foldl (fun a p => pymax a p.2) v)

/-- The latest-marking test of lines 347-349/357: the file's sanitized
timestamp equals the sanitized per-task latest timestamp. -/
def markedS (lm : List (String × String)) (f : String) : Bool :=
  dateS f == sanT (getD lm (taskOf f) seedTs)

/-- Lines 351-360: append the timestamp split for a sample file to its task
config, then append a `latest` split when the file is latest-marked. -/
def taskPart (lm : List (String × String)) (f : String) (es : Config) : Config :=
  (es ++ [⟨dateS f, [pathOf f]⟩]) ++
    (if markedS lm f then [⟨"latest", [pathOf f]⟩] else [])

/-- Lines 374-390 for one split name: locate the first entry with this split
name and append the path to it, else append a fresh single-path entry. -/
def upsertSplit (es : Config) (n : String) (p : String) : Config :=
  match es with
  | [] => [⟨n, [p]⟩]
  | e :: es' =>
    if e.split == n then ⟨e.split, e.path ++ [p]⟩ :: es' else e :: upsertSplit es' n p

/-- Lines 372-392: composite handling of one sample file for one family
prefix: upsert the timestamp split, then upsert `latest` when marked. -/
def compPart (lm : List (String × String)) (f : String) (es : Config) : Config :=
  let es' := upsertSplit es (dateS f) (pathOf f)
  if markedS lm f then upsertSplit es' "latest" (pathOf f) else es'

/-- `SPECIAL_TASKS` (lines 365-369). -/
def SPECIAL_TASKS : List String := ["mmlu_", "gpqa_", "math_"]

/-- Lines 370-392: one iteration of the `for special_task in SPECIAL_TASKS`
loop: if the sanitized task name contains the prefix, read-modify-write the
composite config. -/
def stepSp (lm : List (String × String)) (f : String) (cm : CardMetadata) (sp : String) :
    CardMetadata :=
  if pyContains (taskS f) sp then setK cm sp (compPart lm f (getD cm sp [])) else cm

/-- Lines 340-392: processing of one sample file: the task-config part, then
the composite part for each family prefix in order. -/
def addSampleFile (lm : List (String × String)) (cm : CardMetadata) (f : String) :
    CardMetadata :=
  SPECIAL_TASKS.foldl (stepSp lm f)
    (setK cm (taskS f) (taskPart lm f (getD cm (taskS f) [])))

/-- Lines 332-337: append the timestamp split for a results file to the
`results` config, then a `latest` split when its sanitized timestamp equals
the sanitized global-latest timestamp. -/
def resPart (maxS : String) (f : String) (es : Config) : Config :=
  (es ++ [⟨dateS f, [pathOf f]⟩]) ++
    (if dateS f == sanT maxS then [⟨"latest", [pathOf f]⟩] else [])

/-- Lines 323-337: processing of one results file. -/
def addResultsFile (maxS : String) (cm : CardMetadata) (f : String) : CardMetadata :=
  setK cm "results" (resPart maxS f (getD cm "results" []))

/-- Lines 320-392: the full `card_metadata` structure built from the two file
listings, starting from a fresh `MetadataConfigs()` (line 320). -/
def buildCardMetadata (rf sf : List String) (lm : List (String × String)) (maxS : String) :
    CardMetadata :=
  sf.foldl (addSampleFile lm) (rf.foldl (addResultsFile maxS) [])

/-- The catalog determined by a listing snapshot.  When the sample listing is
empty the Python code raises before building anything (line 317); the seed
value used here as a fallback is then never observable through
`recreateMetadataCard`. -/
def catalogOf (files : List String) : CardMetadata :=
  let sf := sampleFiles files
  let lm := latestMap sf
  buildCardMetadata (resultsFiles files) sf lm
    (match maxVals lm with | some m => m | none => seedTs)

/-- The two exceptions `recreate_metadata_card` can raise from pure
computation: `ValueError` from `max()` on an empty sequence (line 317) and
`IndexError` from `[...][0]` on an empty list (line 400). -/
inductive PyError where
  | valueError
  | indexError
  deriving DecidableEq, Repr

/-- Lines 299-400 of `recreate_metadata_card` up to the card-building I/O
boundary: filter the listing, compute the per-task latest map, fail like
`max()` does on an empty sample listing, build the catalog, then fail like
`[...][0]` does when no results file contains the global-latest timestamp
(with `:` replaced by `-`). -/
def recreateMetadataCard (files : List String) : Except PyError CardMetadata :=
  let rf := resultsFiles files
  let sf := sampleFiles files
  let lm := latestMap sf
  match maxVals lm with
  | none => .error .valueError
  | some maxL =>
    let cm := buildCardMetadata rf sf lm maxL
    match rf.filter (fun f => pyContains f (replColon maxL)) with
    | [] => .error .indexError
    | _ :: _ => .ok cm

/-- The instance attributes of `EvaluationTracker` read by
`recreate_metadata_card`; the method assigns none of them. -/
structure TrackerState where
  modelSource : String
  modelName : String
  repoId : String
  deriving DecidableEq, Repr

/-- One invocation of the builder on a tracker state and a listing snapshot:
the catalog produced together with the state left behind.  The source method
creates a fresh `MetadataConfigs()` (line 320) and assigns no instance
attribute, so the state passes through unchanged. -/
def recreateMetadataCardSt (s : TrackerState) (files : List String) :
    Except PyError CardMetadata × TrackerState :=
  (recreateMetadataCard files, s)

/-- Lines 423-446: the `dataset_summary` string as the code actually builds
it.  Only the `dataset_summary +=` statements contribute; the f-strings at
lines 435-439 and 443-446 (holding the config count, the run count and the
rendered metric table `resultsString`) are bare expression statements whose
values are discarded, so `resultsString` is ignored. -/
def buildDatasetSummary (modelSource modelName repoId taskNameSanitized : String)
    (resultsString : String) : String :=
  let s := "Dataset automatically created during the evaluation run of model "
  let s := s ++
    (if modelSource == "hf" then
      "[" ++ modelName ++ "](https://huggingface.co/" ++ modelName ++ ")"
    else modelName)
  let s := s ++ ".\n\n"
  let s :=
    if modelSource == "hf" then
      s ++ "```python\nfrom datasets import load_dataset\ndata = load_dataset(\n\t\"" ++
        repoId ++ "\",\n\t\"" ++ taskNameSanitized ++ "\",\n\tsplit=\"latest\"\n)\n```\n\n"
    else s
  let _ := resultsString
  s ++ "## Latest results\n\n"

/-- Lines 405-407: the dictionary rendered into `results_string`: the latest
run's metric table under the `"all"` pseudo-key followed by every metric
flattened to the top level (`new_dictionary = {"all": results_dict}` then
`new_dictionary.update(results_dict)`). -/
def newDictionaryKeys (resultsDict : List String) : List String :=
  "all" :: resultsDict

/-- The task-hash computation of `save_results_aggregated` (lines 143-151):
for one task, concatenate each sample's `doc_hash`, `prompt_hash` and
`target_hash` in order, join the per-sample strings in order, and hash the
single resulting string once.  `hashString` abstracts `hash_string` from
`lm_eval.utils`, which is outside this file's source. -/
def taskFingerprint (hashString : String → String)
    (samples : List (String × String × String)) : String :=
  hashString ((samples.map (fun s => s.1 ++ s.2.1 ++ s.2.2)).foldl (· ++ ·) "")

/-- All paths stored under the split named `n` in a `data_files` list, in
order (concatenated over entries in case several share the name). -/
def entPaths (es : Config) (n : String) : List String :=
  (es.filter (fun e => e.split == n)).foldr (fun e acc => e.path ++ acc) []

/-- All paths stored under split `n` of config `c` in the catalog. -/
def splitPaths (cm : CardMetadata) (c n : String) : List String :=
  entPaths (getD cm c []) n

/-- The timestamps parsed for one task name, in listing order. -/
def datesOf (t : String) (sf : List String) : List String :=
  (sf.filter (fun f => taskOf f == t)).map dateOf

/-- Invariant of the results loop (lines 323-337) after processing the
files of `done`: only the key `results` exists, its split names are
distinct, and every entry is the single-path timestamp entry of some
processed file, or its `latest` mirror when that file's sanitized timestamp
equals the sanitized global-latest value. -/
def RInv (maxS : String) (done : List String) (cm : CardMetadata) : Prop :=
  (∀ kv ∈ cm, kv.1 = "results") ∧
  ((getD cm "results" []).map Entry.split).Nodup ∧
  (∀ e ∈ getD cm "results" [], ∃ g ∈ done,
    e.path = [pathOf g] ∧ (e.split = dateS g ∨ (e.split = "latest" ∧ dateS g = sanT maxS)))

/-- An entry of a task config: the single-path timestamp split of some
processed sample file of that task, or its `latest` mirror when the file
was latest-marked. -/
def fromTask (lm : List (String × String)) (done : List String) (c : String)
    (e : Entry) : Prop :=
  ∃ g ∈ done, taskS g = c ∧ e.path = [pathOf g] ∧
    (e.split = dateS g ∨ (e.split = "latest" ∧ markedS lm g = true))

/-- Invariant of the sample loop (lines 340-392) after processing the files
of `done`: the `results` config is untouched; each composite config has
distinct split names and duplicate-free paths drawn from the processed
files; and every other config consists of the timestamp/latest entries of
its processed files, with distinct split names. -/
def SInv (lm : List (String × String)) (done : List String) (res0 : Config)
    (cm : CardMetadata) : Prop :=
  getD cm "results" [] = res0 ∧
  (∀ sp ∈ SPECIAL_TASKS, ((getD cm sp []).map Entry.split).Nodup ∧
    ∀ e ∈ getD cm sp [], e.path.Nodup ∧ ∀ p ∈ e.path, ∃ g ∈ done, pathOf g = p) ∧
  (∀ c, c ∉ SPECIAL_TASKS → c ≠ "results" →
    ((getD cm c []).map Entry.split).Nodup ∧ ∀ e ∈ getD cm c [], fromTask lm done c e)

/-- Every config name in the dictionary is fixed by the name sanitizer and
every split name is fixed by the timestamp sanitizer. -/
def SanOK (cm : CardMetadata) : Prop :=
  ∀ kv ∈ cm, sanW kv.1 = kv.1 ∧ ∀ e ∈ kv.2, sanT e.split = e.split

end Tracker

namespace PySan

mutual
/-- Nested Python values reaching `sanitize_list` (lines 199-208): lists,
tuples, and leaves.  String and integer leaves model the heterogeneous leaf
types of the samples. -/
inductive PyVal where
  | vstr (s : String)
  | vint (n : Int)
  | vlist (xs : PyList)
  | vtuple (xs : PyList)
  deriving DecidableEq, Repr

inductive PyList where
  | nil
  | cons (head : PyVal) (tail : PyList)
  deriving DecidableEq, Repr
end

mutual
/-- `sanitize_list` (lines 199-208): recurse into lists as lists and into
tuples as tuples, and apply Python `str` to every other value.  `str` of a
string is the string itself; `str` of an integer is its decimal form. -/
def sanitize_list : PyVal → PyVal
  | .vlist xs => .vlist (sanitizeEach xs)
  | .vtuple xs => .vtuple (sanitizeEach xs)
  | .vstr s => .vstr s
  | .vint n => .vstr (toString n)

def sanitizeEach : PyList → PyList
  | .nil => .nil
  | .cons x xs => .cons (sanitize_list x) (sanitizeEach xs)
end

mutual
/-- The nesting shape of a value: container structure with leaves erased. -/
def shapeOf : PyVal → PyVal
  | .vlist xs => .vlist (shapeEach xs)
  | .vtuple xs => .vtuple (shapeEach xs)
  | .vstr _ => .vstr ""
  | .vint _ => .vstr ""

def shapeEach : PyList → PyList
  | .nil => .nil
  | .cons x xs => .cons (shapeOf x) (shapeEach xs)
end

mutual
/-- Whether every leaf of a value is a string. -/
def strLeaves : PyVal → Bool
  | .vlist xs => strLeavesL xs
  | .vtuple xs => strLeavesL xs
  | .vstr _ => true
  | .vint _ => false

def strLeavesL : PyList → Bool
  | .nil => true
  | .cons x xs => strLeaves x && strLeavesL xs
end

end PySan

namespace PySan

mutual
/-- Sanitizing preserves the nesting shape of a value. -/
theorem shape_san : ∀ v : PyVal, shapeOf (sanitize_list v) = shapeOf v
  | .vlist xs => congrArg PyVal.vlist (shape_sanL xs)
  | .vtuple xs => congrArg PyVal.vtuple (shape_sanL xs)
  | .vstr _ => rfl
  | .vint _ => rfl

/-- Sanitizing preserves the nesting shape of a list of values. -/
theorem shape_sanL : ∀ xs : PyList, shapeEach (sanitizeEach xs) = shapeEach xs
  | .nil => rfl
  | .cons x xs => by
    simp only [sanitizeEach, shapeEach]
    rw [shape_san x, shape_sanL xs]
end

mutual
/-- Every leaf of a sanitized value is a string. -/
theorem strLeaves_san : ∀ v : PyVal, strLeaves (sanitize_list v) = true
  | .vlist xs => strLeavesL_san xs
  | .vtuple xs => strLeavesL_san xs
  | .vstr _ => rfl
  | .vint _ => rfl

/-- Every leaf of a sanitized list of values is a string. -/
theorem strLeavesL_san : ∀ xs : PyList, strLeavesL (sanitizeEach xs) = true
  | .nil => rfl
  | .cons x xs => by
    simp only [sanitizeEach, strLeavesL]
    rw [strLeaves_san x, strLeavesL_san xs]
    rfl
end

mutual
/-- Sanitizing an already sanitized value returns it unchanged. -/
theorem san_idem : ∀ v : PyVal, sanitize_list (sanitize_list v) = sanitize_list v
  | .vlist xs => congrArg PyVal.vlist (sanL_idem xs)
  | .vtuple xs => congrArg PyVal.vtuple (sanL_idem xs)
  | .vstr _ => rfl
  | .vint _ => rfl

/-- Sanitizing an already sanitized list of values returns it unchanged. -/
theorem sanL_idem : ∀ xs : PyList, sanitizeEach (sanitizeEach xs) = sanitizeEach xs
  | .nil => rfl
  | .cons x xs => by
    simp only [sanitizeEach]
    rw [san_idem x, sanL_idem xs]
end

end PySan

namespace PySan

/-- Claim C7 counterexample: on the value `[1, [2, (3, "x")]]` the sanitizer
does not return the all-list value `["1", ["2", ["3", "x"]]]` the claim
states: the inner tuple stays a tuple, giving `["1", ["2", ("3", "x")]]`. -/
theorem C7_counterexample :
    sanitize_list
        (.vlist (.cons (.vint 1) (.cons (.vlist (.cons (.vint 2)
          (.cons (.vtuple (.cons (.vint 3) (.cons (.vstr "x") .nil))) .nil))) .nil))) ≠
      (.vlist (.cons (.vstr "1") (.cons (.vlist (.cons (.vstr "2")
        (.cons (.vlist (.cons (.vstr "3") (.cons (.vstr "x") .nil))) .nil))) .nil))) ∧
    sanitize_list
        (.vlist (.cons (.vint 1) (.cons (.vlist (.cons (.vint 2)
          (.cons (.vtuple (.cons (.vint 3) (.cons (.vstr "x") .nil))) .nil))) .nil))) =
      (.vlist (.cons (.vstr "1") (.cons (.vlist (.cons (.vstr "2")
        (.cons (.vtuple (.cons (.vstr "3") (.cons (.vstr "x") .nil))) .nil))) .nil))) := by
  constructor
  · intro h
    simp [sanitize_list, sanitizeEach] at h
  · rfl

/-- Claim C7 (amended): `sanitize_list` transforms lists into lists and
tuples into tuples of strings, converting every leaf to its string
representation and preserving the nesting shape exactly; on
`[1, [2, (3, "x")]]` it yields `["1", ["2", ("3", "x")]]`, the inner tuple
remaining a tuple rather than becoming a list. -/
theorem C7_sanitize_shape :
    sanitize_list
        (.vlist (.cons (.vint 1) (.cons (.vlist (.cons (.vint 2)
          (.cons (.vtuple (.cons (.vint 3) (.cons (.vstr "x") .nil))) .nil))) .nil))) =
      (.vlist (.cons (.vstr "1") (.cons (.vlist (.cons (.vstr "2")
        (.cons (.vtuple (.cons (.vstr "3") (.cons (.vstr "x") .nil))) .nil))) .nil))) ∧
    (∀ v : PyVal, shapeOf (sanitize_list v) = shapeOf v ∧
      strLeaves (sanitize_list v) = true) :=
  ⟨rfl, fun v => ⟨shape_san v, strLeaves_san v⟩⟩

/-- Claim C10: the sanitizer is idempotent — applying `sanitize_list` to an
already-sanitized value returns it unchanged. -/
theorem C10_sanitize_list_idem :
    ∀ v : PyVal, sanitize_list (sanitize_list v) = sanitize_list v :=
  san_idem

end PySan

namespace Tracker

/-- Claim C9: the per-task fingerprint of `save_results_aggregated` is the
hash of the in-order concatenation of each sample's hash triple:
on `[("a","b","c"), ("d","e","f")]` it is the hash of the literal string
`"abcdef"`, and for a collision-free hash, permuting the sample order
changes the fingerprint. -/
theorem C9_task_fingerprint :
    ∀ hashString : String → String,
      taskFingerprint hashString [("a", "b", "c"), ("d", "e", "f")] = hashString "abcdef" ∧
      (Function.Injective hashString →
        taskFingerprint hashString [("d", "e", "f"), ("a", "b", "c")] ≠
          taskFingerprint hashString [("a", "b", "c"), ("d", "e", "f")]) := by
  intro h
  refine ⟨rfl, fun hinj heq => absurd (hinj heq) ?_⟩
  decide

/-- Witness for C9 at the identity hash, which is injective. -/
theorem C9_task_fingerprint_witness :
    taskFingerprint id [("a", "b", "c"), ("d", "e", "f")] = id "abcdef" ∧
    taskFingerprint id [("d", "e", "f"), ("a", "b", "c")] ≠
      taskFingerprint id [("a", "b", "c"), ("d", "e", "f")] :=
  ⟨(C9_task_fingerprint id).1, (C9_task_fingerprint id).2 (fun _ _ hab => hab)⟩

/-- Claim C6 (code bug): the assembled narrative body never contains the
config count, the run count or the rendered metric table: the f-strings
computing them (lines 435-439 and 443-446) are bare expression statements
whose values are discarded, so the summary is independent of the rendered
metric table and consists only of the model reference, the optional loading
snippet, and the `## Latest results` heading.  The `"all"` pseudo-key
dictionary of lines 405-407 is computed (its keys are `"all"` followed by
the flattened metric names) but never enters the summary. -/
theorem C6_summary_missing_counts_and_table :
    ∀ rs rs' : String,
      buildDatasetSummary "other" "m" "org/repo" "t" rs =
        buildDatasetSummary "other" "m" "org/repo" "t" rs' ∧
      buildDatasetSummary "other" "m" "org/repo" "t" rs =
        "Dataset automatically created during the evaluation run of model m.\n\n## Latest results\n\n" ∧
      newDictionaryKeys ["acc", "acc_norm"] = ["all", "acc", "acc_norm"] :=
  fun _ _ => ⟨rfl, rfl, rfl⟩

/-- Claim C1 (code bug): `recreate_metadata_card` does not degrade
gracefully on empty listings: on an empty listing, and on a listing with
results files but no sample files, it raises `ValueError` at
`max(latest_task_results_datetime.values())` (line 317); on a listing with
sample files but no results files the catalog itself has no `results`
config, but the builder then raises `IndexError` selecting the latest
results file (line 400). -/
theorem C1_empty_listings_raise :
    recreateMetadataCard [] = .error .valueError ∧
    recreateMetadataCard ["m/results_2024-01-01T00-00-00.json"] = .error .valueError ∧
    recreateMetadataCard ["m/samples_gsm8k_2024-01-01T00-00-00.json"] = .error .indexError ∧
    getD (catalogOf ["m/samples_gsm8k_2024-01-01T00-00-00.json"]) "results" [] = ([] : Config) :=
  ⟨rfl, rfl, rfl, rfl⟩

end Tracker

namespace Tracker

theorem entPaths_nil (n : String) : entPaths [] n = [] := rfl

theorem entPaths_cons (e : Entry) (es : Config) (n : String) :
    entPaths (e :: es) n = (if e.split == n then e.path else []) ++ entPaths es n := by
  by_cases h : e.split == n <;> simp [entPaths, List.filter_cons, h]

theorem entPaths_append (es es' : Config) (n : String) :
    entPaths (es ++ es') n = entPaths es n ++ entPaths es' n := by
  induction es with
  | nil => rfl
  | cons e es ih =>
    simp [List.cons_append, entPaths_cons, ih, List.append_assoc]

/-- If no entry bears the split name `n`, there are no paths under it. -/
theorem entPaths_eq_nil_of_not_mem {es : Config} {n : String}
    (h : n ∉ es.map Entry.split) : entPaths es n = [] := by
  induction es with
  | nil => rfl
  | cons e es ih =>
    simp only [List.map_cons, List.mem_cons] at h
    push_neg at h
    rw [entPaths_cons, if_neg (by simpa [beq_iff_eq] using Ne.symm h.1), ih h.2]
    rfl

/-- The split names after an upsert: unchanged when the name is already
present, extended by the name otherwise. -/
theorem upsertSplit_map_split (es : Config) (n p : String) :
    (upsertSplit es n p).map Entry.split =
      (if es.any (fun e => e.split == n) then es.map Entry.split
        else es.map Entry.split ++ [n]) := by
  induction es with
  | nil => simp [upsertSplit]
  | cons e es ih =>
    by_cases h : e.split == n
    · simp [upsertSplit, h]
    · rw [show upsertSplit (e :: es) n p = e :: upsertSplit es n p from by
          simp [upsertSplit, h]]
      rw [List.map_cons, ih]
      simp only [List.any_cons, h, Bool.false_or]
      by_cases h' : es.any (fun e => e.split == n) <;> simp [h']

/-- Upserting never duplicates a split name. -/
theorem upsertSplit_nodup {es : Config} (n p : String)
    (h : (es.map Entry.split).Nodup) : ((upsertSplit es n p).map Entry.split).Nodup := by
  rw [upsertSplit_map_split]
  by_cases hany : es.any (fun e => e.split == n)
  · simpa [hany]
  · rw [if_neg hany]
    refine List.Nodup.append h (List.nodup_singleton n) ?_
    intro a ha hb
    simp only [List.mem_singleton] at hb
    subst hb
    rcases List.mem_map.1 ha with ⟨e, he, hes⟩
    exact hany (List.any_eq_true.2 ⟨e, he, by simp [hes]⟩)

/-- When the split name is present, the upsert appends the path to the
existing split: the split names are unchanged, and (when split names are
unique) the path list under that name gains exactly `p` at the end. -/
theorem upsertSplit_existing {es : Config} {n : String} (p : String)
    (hmem : ∃ e ∈ es, e.split = n) :
    (upsertSplit es n p).map Entry.split = es.map Entry.split ∧
      ((es.map Entry.split).Nodup →
        entPaths (upsertSplit es n p) n = entPaths es n ++ [p]) := by
  induction es with
  | nil => simp at hmem
  | cons e es ih =>
    by_cases h : e.split == n
    · have hsplit : e.split = n := beq_iff_eq.1 h
      constructor
      · simp [upsertSplit, h]
      · intro hnd
        have hn : n ∉ es.map Entry.split := by
          rw [List.map_cons, List.nodup_cons] at hnd
          rw [← hsplit]; exact hnd.1
        rw [show upsertSplit (e :: es) n p = ⟨e.split, e.path ++ [p]⟩ :: es by
              simp [upsertSplit, h]]
        rw [entPaths_cons, entPaths_cons, if_pos (by simpa [beq_iff_eq] using hsplit),
          if_pos h, entPaths_eq_nil_of_not_mem hn]
        simp
    · have hmem' : ∃ e' ∈ es, e'.split = n := by
        rcases hmem with ⟨e', he', hs⟩
        rcases List.mem_cons.1 he' with rfl | hin
        · exact absurd (beq_iff_eq.2 hs) (by simpa using h)
        · exact ⟨e', hin, hs⟩
      rcases ih hmem' with ⟨ih1, ih2⟩
      constructor
      · simp [upsertSplit, h, ih1]
      · intro hnd
        rw [List.map_cons, List.nodup_cons] at hnd
        rw [show upsertSplit (e :: es) n p = e :: upsertSplit es n p by simp [upsertSplit, h]]
        rw [entPaths_cons, entPaths_cons, if_neg h, ih2 hnd.2]
        simp [List.append_assoc]

/-- Claim C4: composite configs never create a second split for a timestamp
already represented.  Concretely, for the two MMLU sample files of the claim
the composite config `mmlu_` holds exactly one timestamp split,
`2024_01_01T00_00_00`, whose path list has both paths in listing order (plus
the mirrored `latest` split); and in general, upserting a path for a split
name that is already present leaves the split names unchanged and (when
split names are unique) appends the path to the existing split. -/
theorem C4_composite_merge :
    (getD (catalogOf ["m/samples_mmlu_abstract_algebra_2024-01-01T00-00-00.json",
        "m/samples_mmlu_world_religions_2024-01-01T00-00-00.json"]) "mmlu_" [] =
      [⟨"2024_01_01T00_00_00", ["**/samples_mmlu_abstract_algebra_2024-01-01T00-00-00.json",
          "**/samples_mmlu_world_religions_2024-01-01T00-00-00.json"]⟩,
        ⟨"latest", ["**/samples_mmlu_abstract_algebra_2024-01-01T00-00-00.json",
          "**/samples_mmlu_world_religions_2024-01-01T00-00-00.json"]⟩]) ∧
    (∀ (es : Config) (n p : String), (∃ e ∈ es, e.split = n) →
      (upsertSplit es n p).map Entry.split = es.map Entry.split ∧
        ((es.map Entry.split).Nodup →
          entPaths (upsertSplit es n p) n = entPaths es n ++ [p])) :=
  ⟨by decide, fun _ n p hmem => upsertSplit_existing p hmem⟩

/-- Witness for C4's general part at a concrete one-entry config. -/
theorem C4_composite_merge_witness :
    (upsertSplit [⟨"t", ["a"]⟩] "t" "b").map Entry.split = ["t"] ∧
      entPaths (upsertSplit [⟨"t", ["a"]⟩] "t" "b") "t" = ["a", "b"] := by
  obtain ⟨h1, h2⟩ :=
    C4_composite_merge.2 [⟨"t", ["a"]⟩] "t" "b" ⟨⟨"t", ["a"]⟩, by simp, rfl⟩
  exact ⟨h1.trans rfl, (h2 (by simp)).trans rfl⟩

end Tracker

namespace Tracker

theorem cv_inj : Function.Injective cv := by
  intro a b h
  simp only [cv, Char.toNat] at h
  exact Char.eq_of_val_eq (UInt32.toNat.inj h)

/-- The embedded Python string comparison agrees with the lexicographic
order on code-point lists. -/
theorem ltL_iff : ∀ a b : List Char, ltL a b = true ↔ (a.map cv) < (b.map cv)
  | [], [] => by
    simp only [ltL, List.map_nil]
    exact iff_of_false (by simp) (List.Lex.not_nil_right _ _)
  | [], b :: bs => by
    simp only [ltL, List.map_cons, List.map_nil]
    exact iff_of_true trivial List.Lex.nil
  | a :: as, [] => by
    simp only [ltL, List.map_nil, List.map_cons]
    exact iff_of_false (by simp) (List.Lex.not_nil_right _ _)
  | a :: as, b :: bs => by
    simp only [ltL, List.map_cons]
    rcases Nat.lt_trichotomy (cv a) (cv b) with h | h | h
    · rw [if_pos h]
      exact iff_of_true rfl (List.Lex.rel h)
    · rw [if_neg (by omega), if_neg (by omega)]
      rw [ltL_iff as bs]
      rw [show cv a = cv b from h]
      exact (List.Lex.cons_iff (r := (· < ·))).symm
    · rw [if_neg (by omega), if_pos h]
      exact iff_of_false (by simp) (lt_asymm (List.Lex.rel h))

theorem string_eq_of_map_cv {x y : String} (h : x.data.map cv = y.data.map cv) : x = y :=
  String.ext (List.map_injective_iff.2 cv_inj h)

/-- `pymax` through the lexicographic order on code-point lists. -/
theorem pymax_eq (x y : String) :
    pymax x y = if (x.data.map cv) < (y.data.map cv) then y else x := by
  unfold pymax
  by_cases h : (x.data.map cv) < (y.data.map cv)
  · rw [if_pos ((ltL_iff _ _).2 h), if_pos h]
  · rw [if_neg (fun hc => h ((ltL_iff _ _).1 hc)), if_neg h]

theorem map_cv_pymax (x y : String) :
    (pymax x y).data.map cv = max (x.data.map cv) (y.data.map cv) := by
  rw [pymax_eq]
  rcases lt_trichotomy (x.data.map cv) (y.data.map cv) with h | h | h
  · rw [if_pos h, max_eq_right h.le]
  · rw [if_neg (h ▸ lt_irrefl _), h, max_self]
  · rw [if_neg (lt_asymm h), max_eq_left h.le]

theorem pymax_self (x : String) : pymax x x = x :=
  string_eq_of_map_cv (by rw [map_cv_pymax, max_self])

theorem pymax_comm (x y : String) : pymax x y = pymax y x :=
  string_eq_of_map_cv (by rw [map_cv_pymax, map_cv_pymax, max_comm])

theorem pymax_assoc (x y z : String) : pymax (pymax x y) z = pymax x (pymax y z) :=
  string_eq_of_map_cv (by
    rw [map_cv_pymax, map_cv_pymax, map_cv_pymax, map_cv_pymax, max_assoc])

end Tracker

namespace Tracker

theorem pymax_cases (x y : String) : pymax x y = x ∨ pymax x y = y := by
  unfold pymax
  by_cases h : ltL x.data y.data <;> simp [h]

theorem pyLe_iff (x y : String) : pyLe x y = true ↔ x.data.map cv ≤ y.data.map cv := by
  unfold pyLe
  cases hb : ltL y.data x.data with
  | false =>
    exact iff_of_true (by simp)
      (le_of_not_lt fun hc => absurd ((ltL_iff _ _).2 hc) (by simp [hb]))
  | true => exact iff_of_false (by simp) (not_le_of_lt ((ltL_iff _ _).1 hb))

theorem pyLe_refl (x : String) : pyLe x x = true := (pyLe_iff x x).2 le_rfl

theorem pyLe_trans {x y z : String} (h1 : pyLe x y = true) (h2 : pyLe y z = true) :
    pyLe x z = true :=
  (pyLe_iff x z).2 (le_trans ((pyLe_iff x y).1 h1) ((pyLe_iff y z).1 h2))

theorem pyLe_pymax_left (x y : String) : pyLe x (pymax x y) = true :=
  (pyLe_iff _ _).2 (by rw [map_cv_pymax]; exact le_max_left _ _)

theorem pyLe_pymax_right (x y : String) : pyLe y (pymax x y) = true :=
  (pyLe_iff _ _).2 (by rw [map_cv_pymax]; exact le_max_right _ _)

theorem getD_setK_self {α : Type} :
    ∀ (m : List (String × α)) (k : String) (v d : α), getD (setK m k v) k d = v
  | [], k, v, d => by simp [setK, getD]
  | (k', v') :: m, k, v, d => by
    by_cases h : k' == k
    · simp [setK, getD, h]
    · simp only [setK, getD, h, if_neg]
      simpa [getD, h] using getD_setK_self m k v d

theorem getD_setK_ne {α : Type} :
    ∀ (m : List (String × α)) {k k' : String} (v d : α),
      k ≠ k' → getD (setK m k v) k' d = getD m k' d
  | [], k, k', v, d, h => by
    simp only [setK, getD]
    rw [if_neg (by simpa using h)]
  | (k₀, v₀) :: m, k, k', v, d, h => by
    by_cases h0 : k₀ == k
    · have : k₀ = k := by simpa using h0
      subst this
      simp only [setK, h0, if_pos, getD]
      rw [if_neg (by simpa using h), if_neg (by simpa using h)]
    · simp only [setK, h0, if_neg, getD]
      by_cases h1 : k₀ == k'
      · simp [getD, h1]
      · simp only [getD, h1, if_neg]
        exact getD_setK_ne m v d h

theorem latestMap_foldl :
    ∀ (sf : List String) (m : List (String × String)) (t : String),
      getD (sf.foldl
          (fun m f => setK m (taskOf f) (pymax (getD m (taskOf f) seedTs) (dateOf f))) m)
        t seedTs = (datesOf t sf).foldl pymax (getD m t seedTs)
  | [], m, t => rfl
  | f :: sf, m, t => by
    rw [List.foldl_cons, latestMap_foldl sf _ t]
    by_cases h : taskOf f == t
    · have ht : taskOf f = t := by simpa using h
      rw [show datesOf t (f :: sf) = dateOf f :: datesOf t sf by
            simp [datesOf, List.filter_cons, h]]
      rw [← ht, getD_setK_self, List.foldl_cons, ht]
    · have ht : taskOf f ≠ t := by simpa using h
      rw [show datesOf t (f :: sf) = datesOf t sf by simp [datesOf, List.filter_cons, h]]
      rw [getD_setK_ne _ _ _ ht]

/-- `latest_task_results_datetime[t]` is the fold of Python `max` over the
seed and the timestamps parsed for `t`, in listing order. -/
theorem getD_latestMap (sf : List String) (t : String) :
    getD (latestMap sf) t seedTs = (datesOf t sf).foldl pymax seedTs :=
  latestMap_foldl sf [] t

theorem le_foldl_pymax_init : ∀ (ds : List String) (a : String),
    pyLe a (ds.foldl pymax a) = true
  | [], a => pyLe_refl a
  | d :: ds, a => by
    rw [List.foldl_cons]
    exact pyLe_trans (pyLe_pymax_left a d) (le_foldl_pymax_init ds (pymax a d))

theorem le_foldl_pymax_mem : ∀ (ds : List String) (a d : String), d ∈ ds →
    pyLe d (ds.foldl pymax a) = true
  | [], _, _, h => absurd h (List.not_mem_nil _)
  | e :: ds, a, d, h => by
    rw [List.foldl_cons]
    rcases List.mem_cons.1 h with rfl | hin
    · exact pyLe_trans (pyLe_pymax_right a d) (le_foldl_pymax_init ds (pymax a d))
    · exact le_foldl_pymax_mem ds (pymax a e) d hin

theorem foldl_pymax_mem : ∀ (ds : List String) (a : String),
    ds.foldl pymax a = a ∨ ds.foldl pymax a ∈ ds
  | [], a => Or.inl rfl
  | d :: ds, a => by
    rw [List.foldl_cons]
    rcases pymax_cases a d with h | h <;> rw [h]
    · rcases foldl_pymax_mem ds a with he | hm
      · exact Or.inl he
      · exact Or.inr (List.mem_cons_of_mem d hm)
    · rcases foldl_pymax_mem ds d with he | hm
      · rw [he]
        exact Or.inr (List.mem_cons_self d ds)
      · exact Or.inr (List.mem_cons_of_mem d hm)

/-- `latest_task_results_datetime[t]` is order-insensitive. -/
theorem latestMap_perm {sf sf' : List String} (h : sf.Perm sf') (t : String) :
    getD (latestMap sf) t seedTs = getD (latestMap sf') t seedTs := by
  rw [getD_latestMap, getD_latestMap]
  haveI : RightCommutative pymax :=
    ⟨fun b a₁ a₂ => by rw [pymax_assoc, pymax_assoc, pymax_comm a₁ a₂]⟩
  exact List.Perm.foldl_eq ((h.filter _).map _) seedTs

/-- When some timestamp of task `t` is at least the `datetime.min` seed,
`latest_task_results_datetime[t]` is the maximum of `t`'s timestamps. -/
theorem latestMap_attains {sf : List String} {t d : String} (hd : d ∈ datesOf t sf)
    (hseed : pyLe seedTs d = true) :
    getD (latestMap sf) t seedTs ∈ datesOf t sf ∧
      ∀ d' ∈ datesOf t sf, pyLe d' (getD (latestMap sf) t seedTs) = true := by
  rw [getD_latestMap]
  refine ⟨?_, fun d' hd' => le_foldl_pymax_mem _ _ _ hd'⟩
  rcases foldl_pymax_mem (datesOf t sf) seedTs with he | hm
  · have h1 := le_foldl_pymax_mem (datesOf t sf) seedTs d hd
    rw [he] at h1
    have : d = seedTs :=
      string_eq_of_map_cv (le_antisymm ((pyLe_iff _ _).1 h1) ((pyLe_iff _ _).1 hseed))
    rw [he, ← this]
    exact hd
  · exact hm

end Tracker

namespace Tracker

/-- Claim C3 counterexample: for the sample file `m/samples_t_0.json` the
task `t` has the single timestamp `"0"`, yet `taskLatest["t"]` is the
`datetime.min` seed `"0001-01-01T00:00:00"` (which wins the string `max`
against `"0"`), not the maximum of the task's timestamps. -/
theorem C3_counterexample :
    datesOf "t" (sampleFiles ["m/samples_t_0.json"]) = ["0"] ∧
    getD (latestMap (sampleFiles ["m/samples_t_0.json"])) "t" seedTs =
      "0001-01-01T00:00:00" ∧
    getD (latestMap (sampleFiles ["m/samples_t_0.json"])) "t" seedTs ≠ "0" := by
  refine ⟨by decide, by decide, by decide⟩

/-- Claim C3 (amended): `taskLatest[task]` is the fold of Python string
`max` over the `datetime.min` seed and the task's timestamps; it is
invariant under reordering of the input listing; whenever some timestamp of
the task is at least the seed (true of every well-formed ISO timestamp),
it is the maximum of the task's timestamps under string ordering; and in
the concrete `gsm8k` example with timestamps T1 < T2, only the T2 artifact
appears in the `latest` split of config `gsm8k`. -/
theorem C3_task_latest :
    (∀ sf t, getD (latestMap sf) t seedTs = (datesOf t sf).foldl pymax seedTs) ∧
    (∀ sf sf', sf.Perm sf' →
      ∀ t, getD (latestMap sf) t seedTs = getD (latestMap sf') t seedTs) ∧
    (∀ (sf : List String) (t d : String), d ∈ datesOf t sf → pyLe seedTs d = true →
      getD (latestMap sf) t seedTs ∈ datesOf t sf ∧
        ∀ d' ∈ datesOf t sf, pyLe d' (getD (latestMap sf) t seedTs) = true) ∧
    ((getD (catalogOf ["m/samples_gsm8k_2024-01-01T00-00-00.json",
          "m/samples_gsm8k_2024-06-01T00-00-00.json"]) "gsm8k" []).filter
        (fun e => e.split == "latest") =
      [⟨"latest", ["**/samples_gsm8k_2024-06-01T00-00-00.json"]⟩]) :=
  ⟨getD_latestMap, fun _ _ h t => latestMap_perm h t,
    fun _ _ _ hd hs => latestMap_attains hd hs, by decide⟩

/-- Witness for C3 at a two-file listing: reordering the listing leaves the
task-latest value unchanged, and the value is the maximum timestamp. -/
theorem C3_task_latest_witness :
    getD (latestMap ["m/samples_a_2.json", "m/samples_a_1.json"]) "a" seedTs =
      getD (latestMap ["m/samples_a_1.json", "m/samples_a_2.json"]) "a" seedTs ∧
    getD (latestMap ["m/samples_a_2.json", "m/samples_a_1.json"]) "a" seedTs ∈
      datesOf "a" ["m/samples_a_2.json", "m/samples_a_1.json"] :=
  ⟨C3_task_latest.2.1 _ _ (by decide) "a",
    (C3_task_latest.2.2.1 ["m/samples_a_2.json", "m/samples_a_1.json"] "a" "2"
      (by decide) (by decide)).1⟩

end Tracker

namespace Tracker

theorem mem_entPaths_upsert {x : String} :
    ∀ (es : Config) (n p q : String), x ∈ entPaths es q →
      x ∈ entPaths (upsertSplit es n p) q
  | [], n, p, q, h => by simp [entPaths] at h
  | e :: es, n, p, q, h => by
    rw [entPaths_cons] at h
    by_cases hn : e.split == n
    · rw [show upsertSplit (e :: es) n p = ⟨e.split, e.path ++ [p]⟩ :: es by
          simp [upsertSplit, hn]]
      rw [entPaths_cons]
      rcases List.mem_append.1 h with hh | ht
      · by_cases hq : e.split == q
        · rw [if_pos hq] at hh ⊢
          exact List.mem_append.2 (Or.inl (List.mem_append.2 (Or.inl hh)))
        · rw [if_neg hq] at hh
          simp at hh
      · exact List.mem_append.2 (Or.inr ht)
    · rw [show upsertSplit (e :: es) n p = e :: upsertSplit es n p by
          simp [upsertSplit, hn]]
      rw [entPaths_cons]
      rcases List.mem_append.1 h with hh | ht
      · exact List.mem_append.2 (Or.inl hh)
      · exact List.mem_append.2 (Or.inr (mem_entPaths_upsert es n p q ht))

theorem mem_entPaths_taskPart {x : String} {es : Config} {q : String}
    (lm : List (String × String)) (f : String) (h : x ∈ entPaths es q) :
    x ∈ entPaths (taskPart lm f es) q := by
  unfold taskPart
  rw [entPaths_append, entPaths_append]
  exact List.mem_append.2 (Or.inl (List.mem_append.2 (Or.inl h)))

theorem mem_entPaths_compPart {x : String} {es : Config} {q : String}
    (lm : List (String × String)) (f : String) (h : x ∈ entPaths es q) :
    x ∈ entPaths (compPart lm f es) q := by
  unfold compPart
  by_cases hm : markedS lm f
  · rw [if_pos hm]
    exact mem_entPaths_upsert _ _ _ _ (mem_entPaths_upsert _ _ _ _ h)
  · rw [if_neg hm]
    exact mem_entPaths_upsert _ _ _ _ h

theorem mem_splitPaths_setK {x : String} {cm : CardMetadata} {c q k : String}
    {v : Config} (hmono : x ∈ entPaths (getD cm k []) q → x ∈ entPaths v q)
    (h : x ∈ splitPaths cm c q) : x ∈ splitPaths (setK cm k v) c q := by
  unfold splitPaths at h ⊢
  by_cases hc : k = c
  · subst hc
    rw [getD_setK_self]
    exact hmono h
  · rw [getD_setK_ne _ _ _ hc]
    exact h

theorem mem_splitPaths_stepSp {x : String} {cm : CardMetadata} {c q : String}
    (lm : List (String × String)) (f sp : String)
    (h : x ∈ splitPaths cm c q) : x ∈ splitPaths (stepSp lm f cm sp) c q := by
  unfold stepSp
  by_cases hc : pyContains (taskS f) sp
  · rw [if_pos hc]
    exact mem_splitPaths_setK (fun hh => mem_entPaths_compPart lm f hh) h
  · rw [if_neg hc]
    exact h

theorem mem_splitPaths_foldl_stepSp {x : String} {c q : String}
    (lm : List (String × String)) (f : String) :
    ∀ (L : List String) (cm : CardMetadata), x ∈ splitPaths cm c q →
      x ∈ splitPaths (L.foldl (stepSp lm f) cm) c q
  | [], _, h => h
  | sp :: L, cm, h =>
    mem_splitPaths_foldl_stepSp lm f L _ (mem_splitPaths_stepSp lm f sp h)

theorem mem_splitPaths_addSampleFile {x : String} {cm : CardMetadata} {c q : String}
    (lm : List (String × String)) (f : String) (h : x ∈ splitPaths cm c q) :
    x ∈ splitPaths (addSampleFile lm cm f) c q := by
  unfold addSampleFile
  exact mem_splitPaths_foldl_stepSp lm f _ _
    (mem_splitPaths_setK (fun hh => mem_entPaths_taskPart lm f hh) h)

theorem mem_splitPaths_addSampleFile_self (lm : List (String × String))
    (cm : CardMetadata) (f : String) :
    pathOf f ∈ splitPaths (addSampleFile lm cm f) (taskS f) (dateS f) := by
  unfold addSampleFile
  refine mem_splitPaths_foldl_stepSp lm f _ _ ?_
  unfold splitPaths
  rw [getD_setK_self]
  unfold taskPart
  rw [entPaths_append, entPaths_append]
  refine List.mem_append.2 (Or.inl (List.mem_append.2 (Or.inr ?_)))
  rw [entPaths_cons]
  simp [entPaths]

theorem mem_splitPaths_foldl_addSample {x : String} {c q : String}
    (lm : List (String × String)) :
    ∀ (l : List String) (cm : CardMetadata), x ∈ splitPaths cm c q →
      x ∈ splitPaths (l.foldl (addSampleFile lm) cm) c q
  | [], _, h => h
  | g :: l, cm, h =>
    mem_splitPaths_foldl_addSample lm l _ (mem_splitPaths_addSampleFile lm g h)

theorem grouped_of_mem (lm : List (String × String)) :
    ∀ (l : List String) (cm : CardMetadata) (f : String), f ∈ l →
      pathOf f ∈ splitPaths (l.foldl (addSampleFile lm) cm) (taskS f) (dateS f)
  | [], _, _, h => absurd h (List.not_mem_nil _)
  | g :: l, cm, f, h => by
    rw [List.foldl_cons]
    rcases List.mem_cons.1 h with rfl | hin
    · exact mem_splitPaths_foldl_addSample lm l _
        (mem_splitPaths_addSampleFile_self lm cm f)
    · exact grouped_of_mem lm l _ f hin

end Tracker

namespace Tracker

/-- Claim C8 counterexample: a malformed sample filename (`samples_x.json`
matches neither `results_<ts>.json` nor `samples_<task>_<ts>.json`) causes
no failure: the run completes (`.ok`), and the file is silently grouped
into the catalog under the degenerate task name `""` (the slice between the
first and last underscore is empty) with timestamp `"x"`. -/
theorem C8_counterexample :
    recreateMetadataCard ["m/samples_x.json", "m/results_x.json"] =
      .ok (catalogOf ["m/samples_x.json", "m/results_x.json"]) ∧
    splitPaths (catalogOf ["m/samples_x.json", "m/results_x.json"]) "" "x" =
      ["**/samples_x.json"] := by
  refine ⟨rfl, by decide⟩

/-- Claim C8 (amended): parsing never raises — `get_file_task_name` and
`get_file_datetime` are total string slices, so a malformed filename yields
degenerate task/timestamp values (e.g. `samples_x.json` parses to task `""`
and timestamp `"x"`) — and every listed sample file, well-formed or not, is
silently grouped into the catalog: its `**/`-prefixed basename appears
under the config named by its sanitized task name, in the split named by
its sanitized timestamp. -/
theorem C8_malformed_grouped :
    getFileTaskName "samples_x.json" = "" ∧
    getFileDatetime "samples_x.json" = "x" ∧
    (∀ (files : List String) (f : String), f ∈ sampleFiles files →
      pathOf f ∈ splitPaths (catalogOf files) (taskS f) (dateS f)) := by
  refine ⟨by decide, by decide, fun files f hf => ?_⟩
  unfold catalogOf buildCardMetadata
  exact grouped_of_mem _ _ _ f hf

/-- Witness for C8 at the malformed listing. -/
theorem C8_malformed_grouped_witness :
    pathOf "m/samples_x.json" ∈
      splitPaths (catalogOf ["m/samples_x.json"]) (taskS "m/samples_x.json")
        (dateS "m/samples_x.json") :=
  C8_malformed_grouped.2.2 ["m/samples_x.json"] "m/samples_x.json" (by decide)

end Tracker

namespace Tracker

theorem nodup_append_singleton {α : Type} {l : List α} {x : α}
    (h : l.Nodup) (hx : x ∉ l) : (l ++ [x]).Nodup := by
  rw [List.nodup_append]
  refine ⟨h, List.nodup_singleton x, fun a ha hax => ?_⟩
  rw [List.mem_singleton] at hax
  subst hax
  exact hx ha

theorem mem_setK {α : Type} :
    ∀ {m : List (String × α)} {k : String} {v : α} {kv : String × α},
      kv ∈ setK m k v → kv = (k, v) ∨ kv ∈ m
  | [], k, v, kv, h => by
    simpa [setK] using h
  | (k₀, v₀) :: m, k, v, kv, h => by
    by_cases h0 : k₀ == k
    · have : k₀ = k := by simpa using h0
      subst this
      rw [show setK ((k₀, v₀) :: m) k₀ v = (k₀, v) :: m by simp [setK]] at h
      rcases List.mem_cons.1 h with rfl | hin
      · exact Or.inl rfl
      · exact Or.inr (List.mem_cons_of_mem _ hin)
    · rw [show setK ((k₀, v₀) :: m) k v = (k₀, v₀) :: setK m k v by simp [setK, h0]] at h
      rcases List.mem_cons.1 h with rfl | hin
      · exact Or.inr (List.mem_cons_self _ _)
      · rcases mem_setK hin with he | hm
        · exact Or.inl he
        · exact Or.inr (List.mem_cons_of_mem _ hm)

theorem getD_eq_nil_of_keys {cm : CardMetadata} {k : String}
    (hk : ∀ kv ∈ cm, kv.1 = "results") (h : k ≠ "results") : getD cm k [] = [] := by
  induction cm with
  | nil => rfl
  | cons kv cm ih =>
    have h1 : kv.1 = "results" := hk kv (List.mem_cons_self _ _)
    rw [show getD (kv :: cm) k ([] : Config) =
          if kv.1 == k then kv.2 else getD cm k [] from by
        rcases kv with ⟨a, b⟩
        rfl]
    rw [if_neg (by simp [h1]; exact fun hc => h hc.symm)]
    exact ih (fun kv' hkv' => hk kv' (List.mem_cons_of_mem _ hkv'))

/-- Every entry of an upsert is an untouched original entry, the first
original entry with the given split name extended by the path, or a fresh
single-path entry named by the split. -/
theorem mem_upsertSplit :
    ∀ {es : Config} {n p : String} {e' : Entry}, e' ∈ upsertSplit es n p →
      e' ∈ es ∨ (∃ e ∈ es, e.split = n ∧ e' = ⟨e.split, e.path ++ [p]⟩) ∨ e' = ⟨n, [p]⟩
  | [], n, p, e', h => by
    rw [show upsertSplit [] n p = [⟨n, [p]⟩] from rfl] at h
    exact Or.inr (Or.inr (List.mem_singleton.1 h))
  | e :: es, n, p, e', h => by
    by_cases hn : e.split == n
    · rw [show upsertSplit (e :: es) n p = ⟨e.split, e.path ++ [p]⟩ :: es by
          simp [upsertSplit, hn]] at h
      rcases List.mem_cons.1 h with rfl | hin
      · exact Or.inr (Or.inl ⟨e, List.mem_cons_self _ _, by simpa using hn, rfl⟩)
      · exact Or.inl (List.mem_cons_of_mem _ hin)
    · rw [show upsertSplit (e :: es) n p = e :: upsertSplit es n p by
          simp [upsertSplit, hn]] at h
      rcases List.mem_cons.1 h with rfl | hin
      · exact Or.inl (List.mem_cons_self _ _)
      · rcases mem_upsertSplit hin with h1 | h2 | h3
        · exact Or.inl (List.mem_cons_of_mem _ h1)
        · rcases h2 with ⟨e₀, he₀, hs, he'⟩
          exact Or.inr (Or.inl ⟨e₀, List.mem_cons_of_mem _ he₀, hs, he'⟩)
        · exact Or.inr (Or.inr h3)

theorem string_append_cancel {s a b : String} (h : s ++ a = s ++ b) : a = b :=
  String.ext (List.append_cancel_left
    (by rw [← String.data_append, ← String.data_append, h]))

/-- Files with the same repo-glob path have the same basename, hence the
same parsed and sanitized task name and timestamp. -/
theorem pathOf_inj {f g : String} (h : pathOf f = pathOf g) :
    taskS f = taskS g ∧ dateS f = dateS g := by
  have hb : baseName f = baseName g := string_append_cancel h
  constructor
  · show sanW (getFileTaskName (baseName f)) = sanW (getFileTaskName (baseName g))
    rw [hb]
  · show sanT (getFileDatetime (baseName f)) = sanT (getFileDatetime (baseName g))
    rw [hb]

theorem isWordChar_after_sanW (c : Char) :
    isWordChar (if isWordChar c then c else '_') = true := by
  by_cases h : isWordChar c
  · rw [if_pos h]
    exact h
  · rw [if_neg h]
    decide

theorem sanTChar_fix (c : Char) :
    (isWordChar (if isWordChar c || c == '.' then c else '_') ||
      (if isWordChar c || c == '.' then c else '_') == '.') = true := by
  by_cases h : (isWordChar c || c == '.')
  · rw [if_pos h]
    exact h
  · rw [if_neg h]
    decide

/-- `re.sub(r"\W", "_", ·)` is idempotent: sanitized names are fixed. -/
theorem sanW_idem (s : String) : sanW (sanW s) = sanW s := by
  unfold sanW
  refine String.ext ?_
  show (s.data.map _).map _ = s.data.map _
  rw [List.map_map]
  refine List.map_congr_left (fun c _ => ?_)
  show (if isWordChar (if isWordChar c then c else '_') then _ else '_') = _
  rw [if_pos (isWordChar_after_sanW c)]

/-- `re.sub(r"[^\w\.]", "_", ·)` is idempotent: sanitized splits are fixed. -/
theorem sanT_idem (s : String) : sanT (sanT s) = sanT s := by
  unfold sanT
  refine String.ext ?_
  show (s.data.map _).map _ = s.data.map _
  rw [List.map_map]
  refine List.map_congr_left (fun c _ => ?_)
  simp only [Function.comp]
  rw [if_pos (sanTChar_fix c)]

end Tracker

namespace Tracker

theorem getD_stepSp_ne (lm : List (String × String)) (f : String) (cm : CardMetadata)
    {sp k : String} (h : sp ≠ k) : getD (stepSp lm f cm sp) k [] = getD cm k [] := by
  unfold stepSp
  by_cases hc : pyContains (taskS f) sp
  · rw [if_pos hc, getD_setK_ne _ _ _ h]
  · rw [if_neg hc]

theorem getD_foldl_stepSp_not_mem (lm : List (String × String)) (f : String) :
    ∀ (L : List String) (cm : CardMetadata) {k : String}, k ∉ L →
      getD (L.foldl (stepSp lm f) cm) k [] = getD cm k []
  | [], _, _, _ => rfl
  | sp :: L, cm, k, hk => by
    have hk1 : k ≠ sp := fun hc => hk (hc ▸ List.mem_cons_self _ _)
    have hk2 : k ∉ L := fun hc => hk (List.mem_cons_of_mem _ hc)
    rw [List.foldl_cons, getD_foldl_stepSp_not_mem lm f L _ hk2,
      getD_stepSp_ne lm f cm (Ne.symm hk1)]

theorem getD_foldl_stepSp_mem (lm : List (String × String)) (f : String) :
    ∀ (L : List String) (cm : CardMetadata) {sp : String}, L.Nodup → sp ∈ L →
      getD (L.foldl (stepSp lm f) cm) sp [] =
        (if pyContains (taskS f) sp then compPart lm f (getD cm sp []) else getD cm sp [])
  | [], _, _, _, hsp => absurd hsp (List.not_mem_nil _)
  | sp0 :: L, cm, sp, hnd, hsp => by
    rw [List.nodup_cons] at hnd
    rw [List.foldl_cons]
    rcases List.mem_cons.1 hsp with rfl | hin
    · rw [getD_foldl_stepSp_not_mem lm f L _ hnd.1]
      unfold stepSp
      by_cases hc : pyContains (taskS f) sp
      · rw [if_pos hc, if_pos hc, getD_setK_self]
      · rw [if_neg hc, if_neg hc]
    · rw [getD_foldl_stepSp_mem lm f L _ hnd.2 hin,
        getD_stepSp_ne lm f cm (fun hc => hnd.1 (by rw [hc]; exact hin))]

theorem special_tasks_nodup : SPECIAL_TASKS.Nodup := by decide

theorem getD_addSampleFile_other (lm : List (String × String)) (cm : CardMetadata)
    (f : String) {k : String} (hk1 : k ≠ taskS f) (hk2 : k ∉ SPECIAL_TASKS) :
    getD (addSampleFile lm cm f) k [] = getD cm k [] := by
  unfold addSampleFile
  rw [getD_foldl_stepSp_not_mem lm f _ _ hk2, getD_setK_ne _ _ _ (Ne.symm hk1)]

theorem getD_addSampleFile_task (lm : List (String × String)) (cm : CardMetadata)
    (f : String) (hsp : taskS f ∉ SPECIAL_TASKS) :
    getD (addSampleFile lm cm f) (taskS f) [] = taskPart lm f (getD cm (taskS f) []) := by
  unfold addSampleFile
  rw [getD_foldl_stepSp_not_mem lm f _ _ hsp, getD_setK_self]

theorem getD_addSampleFile_sp (lm : List (String × String)) (cm : CardMetadata)
    (f : String) {sp : String} (hsp : sp ∈ SPECIAL_TASKS) (hf : taskS f ≠ sp) :
    getD (addSampleFile lm cm f) sp [] =
      (if pyContains (taskS f) sp then compPart lm f (getD cm sp []) else getD cm sp []) := by
  unfold addSampleFile
  rw [getD_foldl_stepSp_mem lm f _ _ special_tasks_nodup hsp,
    getD_setK_ne _ _ _ hf]

theorem getD_addResultsFile_results (maxS : String) (cm : CardMetadata) (f : String) :
    getD (addResultsFile maxS cm f) "results" [] = resPart maxS f (getD cm "results" []) := by
  unfold addResultsFile
  rw [getD_setK_self]

theorem getD_addResultsFile_other (maxS : String) (cm : CardMetadata) (f : String)
    {k : String} (h : k ≠ "results") :
    getD (addResultsFile maxS cm f) k [] = getD cm k [] := by
  unfold addResultsFile
  rw [getD_setK_ne _ _ _ (Ne.symm h)]

end Tracker

namespace Tracker

theorem resPart_map_split (maxS f : String) (es : Config) :
    (resPart maxS f es).map Entry.split =
      (es.map Entry.split ++ [dateS f]) ++
        (if dateS f == sanT maxS then ["latest"] else []) := by
  unfold resPart
  by_cases h : dateS f == sanT maxS <;> simp [h]

theorem RInv_step {maxS : String} {done : List String} {cm : CardMetadata} {f : String}
    (hpair : ∀ g ∈ done, dateS g ≠ dateS f) (hlat : dateS f ≠ "latest")
    (hlatd : ∀ g ∈ done, dateS g ≠ "latest") (hinv : RInv maxS done cm) :
    RInv maxS (done ++ [f]) (addResultsFile maxS cm f) := by
  obtain ⟨hkeys, hnd, hprov⟩ := hinv
  have hdf : dateS f ∉ (getD cm "results" []).map Entry.split := by
    intro hmem
    rcases List.mem_map.1 hmem with ⟨e, he, hes⟩
    rcases hprov e he with ⟨g, hg, _, hsp | hsp⟩
    · exact hpair g hg (by rw [← hsp, hes])
    · exact hlat (by rw [← hes, hsp.1])
  refine ⟨?_, ?_, ?_⟩
  · intro kv hkv
    unfold addResultsFile at hkv
    rcases mem_setK hkv with rfl | hm
    · rfl
    · exact hkeys _ hm
  · rw [getD_addResultsFile_results, resPart_map_split]
    by_cases h : dateS f == sanT maxS
    · rw [if_pos h]
      refine nodup_append_singleton (nodup_append_singleton hnd hdf) ?_
      intro hmem
      rcases List.mem_append.1 hmem with hold | hone
      · rcases List.mem_map.1 hold with ⟨e, he, hes⟩
        rcases hprov e he with ⟨g, hg, _, hsp | hsp⟩
        · exact hlatd g hg (by rw [← hsp, hes])
        · exact hpair g hg (by
            rw [hsp.2]
            exact (beq_iff_eq.1 h).symm)
      · rw [List.mem_singleton] at hone
        exact hlat hone.symm
    · rw [if_neg h]
      simpa using nodup_append_singleton hnd hdf
  · rw [getD_addResultsFile_results]
    intro e he
    unfold resPart at he
    rcases List.mem_append.1 he with h1 | h2
    · rcases List.mem_append.1 h1 with hold | hnew
      · rcases hprov e hold with ⟨g, hg, hp, hsp⟩
        exact ⟨g, List.mem_append.2 (Or.inl hg), hp, hsp⟩
      · rw [List.mem_singleton] at hnew
        subst hnew
        exact ⟨f, List.mem_append.2 (Or.inr (List.mem_singleton.2 rfl)), rfl, Or.inl rfl⟩
    · by_cases h : dateS f == sanT maxS
      · rw [if_pos h, List.mem_singleton] at h2
        subst h2
        exact ⟨f, List.mem_append.2 (Or.inr (List.mem_singleton.2 rfl)), rfl,
          Or.inr ⟨rfl, beq_iff_eq.1 h⟩⟩
      · rw [if_neg h] at h2
        simp at h2

theorem RInv_foldl (maxS : String) :
    ∀ (rest done : List String) (cm : CardMetadata),
      (done ++ rest).Pairwise (fun f g => dateS f ≠ dateS g) →
      (∀ g ∈ done ++ rest, dateS g ≠ "latest") →
      RInv maxS done cm →
      RInv maxS (done ++ rest) (rest.foldl (addResultsFile maxS) cm)
  | [], done, cm, _, _, h => by simpa using h
  | f :: rest, done, cm, hp, hl, h => by
    have hassoc : done ++ f :: rest = (done ++ [f]) ++ rest := by simp
    rw [hassoc] at hp hl ⊢
    rw [List.foldl_cons]
    refine RInv_foldl maxS rest (done ++ [f]) _ hp hl ?_
    refine RInv_step ?_ ?_ ?_ h
    · intro g hg
      have h1 := (List.pairwise_append.1 hp).1
      exact (List.pairwise_append.1 h1).2.2 g hg f (List.mem_singleton.2 rfl)
    · exact hl f (by simp)
    · intro g hg
      exact hl g (List.mem_append.2 (Or.inl (List.mem_append.2 (Or.inl hg))))

end Tracker

namespace Tracker

theorem compPart_def (lm : List (String × String)) (f : String) (es : Config) :
    compPart lm f es =
      (if markedS lm f then
        upsertSplit (upsertSplit es (dateS f) (pathOf f)) "latest" (pathOf f)
      else upsertSplit es (dateS f) (pathOf f)) := by
  unfold compPart
  by_cases hm : markedS lm f <;> simp [hm]

theorem compPart_nodup {lm : List (String × String)} {f : String} {es : Config}
    (h : (es.map Entry.split).Nodup) :
    ((compPart lm f es).map Entry.split).Nodup := by
  rw [compPart_def]
  by_cases hm : markedS lm f
  · rw [if_pos hm]
    exact upsertSplit_nodup _ _ (upsertSplit_nodup _ _ h)
  · rw [if_neg hm]
    exact upsertSplit_nodup _ _ h

theorem taskPart_map_split (lm : List (String × String)) (f : String) (es : Config) :
    (taskPart lm f es).map Entry.split =
      (es.map Entry.split ++ [dateS f]) ++
        (if markedS lm f then ["latest"] else []) := by
  unfold taskPart
  by_cases h : markedS lm f <;> simp [h]

/-- After one composite upsert pass for a sample file, every entry has
duplicate-free paths drawn from the processed files, provided the new path
is fresh and the timestamp split is not named `latest`. -/
theorem compPart_props {lm : List (String × String)} {done : List String} {f : String}
    {old : Config}
    (hold : ∀ e ∈ old, e.path.Nodup ∧ ∀ q ∈ e.path, ∃ g ∈ done, pathOf g = q)
    (hfresh : ∀ g ∈ done, pathOf g ≠ pathOf f) (hlat : dateS f ≠ "latest") :
    ∀ e ∈ compPart lm f old,
      e.path.Nodup ∧ ∀ q ∈ e.path, ∃ g ∈ done ++ [f], pathOf g = q := by
  have hfreshp : ∀ e ∈ old, pathOf f ∉ e.path := by
    intro e he hq
    rcases (hold e he).2 _ hq with ⟨g, hg, hgp⟩
    exact hfresh g hg hgp
  have hit : ∀ e ∈ upsertSplit old (dateS f) (pathOf f),
      (e.path.Nodup ∧ ∀ q ∈ e.path, ∃ g ∈ done ++ [f], pathOf g = q) ∧
        (e.split = "latest" → pathOf f ∉ e.path) := by
    intro e he
    rcases mem_upsertSplit he with hmem | ⟨e₀, he₀, hs₀, rfl⟩ | rfl
    · refine ⟨⟨(hold e hmem).1, fun q hq => ?_⟩, fun _ => hfreshp e hmem⟩
      rcases (hold e hmem).2 q hq with ⟨g, hg, hgp⟩
      exact ⟨g, List.mem_append.2 (Or.inl hg), hgp⟩
    · refine ⟨⟨nodup_append_singleton (hold e₀ he₀).1 (hfreshp e₀ he₀), fun q hq => ?_⟩,
        fun hl => absurd (hs₀ ▸ hl : dateS f = "latest") hlat⟩
      rcases List.mem_append.1 hq with hq1 | hq2
      · rcases (hold e₀ he₀).2 q hq1 with ⟨g, hg, hgp⟩
        exact ⟨g, List.mem_append.2 (Or.inl hg), hgp⟩
      · rw [List.mem_singleton] at hq2
        exact ⟨f, List.mem_append.2 (Or.inr (List.mem_singleton.2 rfl)), hq2.symm⟩
    · refine ⟨⟨List.nodup_singleton _, fun q hq => ?_⟩, fun hl => absurd hl hlat⟩
      rw [List.mem_singleton] at hq
      exact ⟨f, List.mem_append.2 (Or.inr (List.mem_singleton.2 rfl)), hq.symm⟩
  rw [compPart_def]
  by_cases hm : markedS lm f
  · rw [if_pos hm]
    intro e he
    rcases mem_upsertSplit he with hmem | ⟨e₀, he₀, hs₀, rfl⟩ | rfl
    · exact (hit e hmem).1
    · have h1 := (hit e₀ he₀).1
      have h2 := (hit e₀ he₀).2 hs₀
      refine ⟨nodup_append_singleton h1.1 h2, fun q hq => ?_⟩
      rcases List.mem_append.1 hq with hq1 | hq2
      · exact h1.2 q hq1
      · rw [List.mem_singleton] at hq2
        exact ⟨f, List.mem_append.2 (Or.inr (List.mem_singleton.2 rfl)), hq2.symm⟩
    · refine ⟨List.nodup_singleton _, fun q hq => ?_⟩
      rw [List.mem_singleton] at hq
      exact ⟨f, List.mem_append.2 (Or.inr (List.mem_singleton.2 rfl)), hq.symm⟩
  · rw [if_neg hm]
    intro e he
    exact (hit e he).1

end Tracker

namespace Tracker

theorem fromTask_mono {lm : List (String × String)} {done : List String} {c : String}
    {e : Entry} (f : String) (h : fromTask lm done c e) :
    fromTask lm (done ++ [f]) c e := by
  rcases h with ⟨g, hg, h1, h2, h3⟩
  exact ⟨g, List.mem_append.2 (Or.inl hg), h1, h2, h3⟩

theorem SInv_step {lm : List (String × String)} {done : List String} {res0 : Config}
    {cm : CardMetadata} {f : String}
    (hpair : ∀ g ∈ done, ¬(taskS g = taskS f ∧ dateS g = dateS f))
    (htask : ∀ g ∈ done, taskS g = taskS f → taskOf g = taskOf f)
    (hlat : dateS f ≠ "latest") (hlatd : ∀ g ∈ done, dateS g ≠ "latest")
    (hsp : taskS f ∉ SPECIAL_TASKS) (hres : taskS f ≠ "results")
    (hinv : SInv lm done res0 cm) :
    SInv lm (done ++ [f]) res0 (addSampleFile lm cm f) := by
  obtain ⟨hr, hspec, htsk⟩ := hinv
  have hfresh : ∀ g ∈ done, pathOf g ≠ pathOf f := by
    intro g hg hc
    exact hpair g hg (pathOf_inj hc)
  refine ⟨?_, ?_, ?_⟩
  · rw [getD_addSampleFile_other lm cm f (Ne.symm hres) (by decide)]
    exact hr
  · intro sp hspm
    have hf : taskS f ≠ sp := fun hc => hsp (by rw [hc]; exact hspm)
    rw [getD_addSampleFile_sp lm cm f hspm hf]
    obtain ⟨hnd0, hprops0⟩ := hspec sp hspm
    by_cases hc : pyContains (taskS f) sp
    · rw [if_pos hc]
      exact ⟨compPart_nodup hnd0, compPart_props hprops0 hfresh hlat⟩
    · rw [if_neg hc]
      refine ⟨hnd0, fun e he => ⟨(hprops0 e he).1, fun q hq => ?_⟩⟩
      rcases (hprops0 e he).2 q hq with ⟨g, hg, hgp⟩
      exact ⟨g, List.mem_append.2 (Or.inl hg), hgp⟩
  · intro c hc1 hc2
    by_cases hcf : c = taskS f
    · subst hcf
      rw [getD_addSampleFile_task lm cm f hsp]
      obtain ⟨hnd0, hfrom0⟩ := htsk (taskS f) hc1 hc2
      have hdf : dateS f ∉ (getD cm (taskS f) []).map Entry.split := by
        intro hmem
        rcases List.mem_map.1 hmem with ⟨e, he, hes⟩
        rcases hfrom0 e he with ⟨g, hg, hgt, _, hsplit | hsplit⟩
        · exact hpair g hg ⟨hgt, by rw [← hsplit, hes]⟩
        · exact hlat (by rw [← hes, hsplit.1])
      constructor
      · rw [taskPart_map_split]
        by_cases hm : markedS lm f
        · rw [if_pos hm]
          refine nodup_append_singleton (nodup_append_singleton hnd0 hdf) ?_
          intro hmem
          rcases List.mem_append.1 hmem with hold | hone
          · rcases List.mem_map.1 hold with ⟨e, he, hes⟩
            rcases hfrom0 e he with ⟨g, hg, hgt, _, hsplit | hsplit⟩
            · exact hlatd g hg (by rw [← hsplit, hes])
            · refine hpair g hg ⟨hgt, ?_⟩
              have hg1 : dateS g = sanT (getD lm (taskOf g) seedTs) :=
                beq_iff_eq.1 hsplit.2
              have hf1 : dateS f = sanT (getD lm (taskOf f) seedTs) :=
                beq_iff_eq.1 hm
              rw [hg1, hf1, htask g hg hgt]
          · rw [List.mem_singleton] at hone
            exact hlat hone.symm
        · rw [if_neg hm]
          simpa using nodup_append_singleton hnd0 hdf
      · intro e he
        unfold taskPart at he
        rcases List.mem_append.1 he with h1 | h2
        · rcases List.mem_append.1 h1 with hold | hnew
          · exact fromTask_mono f (hfrom0 e hold)
          · rw [List.mem_singleton] at hnew
            subst hnew
            exact ⟨f, List.mem_append.2 (Or.inr (List.mem_singleton.2 rfl)), rfl, rfl,
              Or.inl rfl⟩
        · by_cases hm : markedS lm f
          · rw [if_pos hm, List.mem_singleton] at h2
            subst h2
            exact ⟨f, List.mem_append.2 (Or.inr (List.mem_singleton.2 rfl)), rfl, rfl,
              Or.inr ⟨rfl, hm⟩⟩
          · rw [if_neg hm] at h2
            simp at h2
    · rw [getD_addSampleFile_other lm cm f hcf hc1]
      obtain ⟨hnd0, hfrom0⟩ := htsk c hc1 hc2
      exact ⟨hnd0, fun e he => fromTask_mono f (hfrom0 e he)⟩

theorem SInv_foldl (lm : List (String × String)) (res0 : Config) :
    ∀ (rest done : List String) (cm : CardMetadata),
      ((done ++ rest).Pairwise fun f g => ¬(taskS f = taskS g ∧ dateS f = dateS g)) →
      (∀ f ∈ done ++ rest, ∀ g ∈ done ++ rest, taskS f = taskS g → taskOf f = taskOf g) →
      (∀ f ∈ done ++ rest, dateS f ≠ "latest" ∧ taskS f ∉ SPECIAL_TASKS ∧
        taskS f ≠ "results") →
      SInv lm done res0 cm →
      SInv lm (done ++ rest) res0 (rest.foldl (addSampleFile lm) cm)
  | [], done, cm, _, _, _, h => by simpa using h
  | f :: rest, done, cm, hp, ht, hpt, h => by
    have hassoc : done ++ f :: rest = (done ++ [f]) ++ rest := by simp
    rw [hassoc] at hp ht hpt ⊢
    rw [List.foldl_cons]
    refine SInv_foldl lm res0 rest (done ++ [f]) _ hp ht hpt ?_
    have hfmem : f ∈ (done ++ [f]) ++ rest := by simp
    refine SInv_step ?_ ?_ ?_ ?_ ?_ ?_ h
    · intro g hg
      have h1 := (List.pairwise_append.1 hp).1
      exact (List.pairwise_append.1 h1).2.2 g hg f (List.mem_singleton.2 rfl)
    · intro g hg hgt
      exact ht g (List.mem_append.2 (Or.inl (List.mem_append.2 (Or.inl hg)))) f hfmem hgt
    · exact (hpt f hfmem).1
    · intro g hg
      exact (hpt g (List.mem_append.2 (Or.inl (List.mem_append.2 (Or.inl hg))))).1
    · exact (hpt f hfmem).2.1
    · exact (hpt f hfmem).2.2

end Tracker

namespace Tracker

theorem SanOK_getD {cm : CardMetadata} (h : SanOK cm) :
    ∀ k, ∀ e ∈ getD cm k [], sanT e.split = e.split := by
  induction cm with
  | nil => intro k e he; simp [getD] at he
  | cons kv cm ih =>
    intro k e he
    rcases kv with ⟨k₀, v₀⟩
    rw [show getD ((k₀, v₀) :: cm) k ([] : Config) =
          if k₀ == k then v₀ else getD cm k [] from rfl] at he
    by_cases h0 : k₀ == k
    · rw [if_pos h0] at he
      exact (h _ (List.mem_cons_self _ _)).2 e he
    · rw [if_neg h0] at he
      exact ih (fun kv' hkv' => h kv' (List.mem_cons_of_mem _ hkv')) k e he

theorem SanOK_setK {cm : CardMetadata} {k : String} {v : Config} (h : SanOK cm)
    (hk : sanW k = k) (hv : ∀ e ∈ v, sanT e.split = e.split) : SanOK (setK cm k v) := by
  intro kv hkv
  rcases mem_setK hkv with rfl | hm
  · exact ⟨hk, hv⟩
  · exact h kv hm

theorem sanT_latest : sanT "latest" = "latest" := by decide

theorem sanW_results : sanW "results" = "results" := by decide

theorem sanW_special : ∀ sp ∈ SPECIAL_TASKS, sanW sp = sp := by decide

theorem upsertSplit_split_fix {es : Config} {n p : String}
    (h : ∀ e ∈ es, sanT e.split = e.split) (hn : sanT n = n) :
    ∀ e ∈ upsertSplit es n p, sanT e.split = e.split := by
  intro e he
  rcases mem_upsertSplit he with hmem | ⟨e₀, he₀, _, rfl⟩ | rfl
  · exact h e hmem
  · exact h e₀ he₀
  · exact hn

theorem compPart_split_fix {lm : List (String × String)} {f : String} {es : Config}
    (h : ∀ e ∈ es, sanT e.split = e.split) :
    ∀ e ∈ compPart lm f es, sanT e.split = e.split := by
  rw [compPart_def]
  by_cases hm : markedS lm f
  · rw [if_pos hm]
    exact upsertSplit_split_fix (upsertSplit_split_fix h (sanT_idem _)) sanT_latest
  · rw [if_neg hm]
    exact upsertSplit_split_fix h (sanT_idem _)

theorem taskPart_split_fix {lm : List (String × String)} {f : String} {es : Config}
    (h : ∀ e ∈ es, sanT e.split = e.split) :
    ∀ e ∈ taskPart lm f es, sanT e.split = e.split := by
  intro e he
  unfold taskPart at he
  rcases List.mem_append.1 he with h1 | h2
  · rcases List.mem_append.1 h1 with hold | hnew
    · exact h e hold
    · rw [List.mem_singleton] at hnew
      subst hnew
      exact sanT_idem _
  · by_cases hm : markedS lm f
    · rw [if_pos hm, List.mem_singleton] at h2
      subst h2
      exact sanT_latest
    · rw [if_neg hm] at h2
      simp at h2

theorem resPart_split_fix {maxS f : String} {es : Config}
    (h : ∀ e ∈ es, sanT e.split = e.split) :
    ∀ e ∈ resPart maxS f es, sanT e.split = e.split := by
  intro e he
  unfold resPart at he
  rcases List.mem_append.1 he with h1 | h2
  · rcases List.mem_append.1 h1 with hold | hnew
    · exact h e hold
    · rw [List.mem_singleton] at hnew
      subst hnew
      exact sanT_idem _
  · by_cases hm : dateS f == sanT maxS
    · rw [if_pos hm, List.mem_singleton] at h2
      subst h2
      exact sanT_latest
    · rw [if_neg hm] at h2
      simp at h2

theorem SanOK_addResultsFile {maxS : String} {cm : CardMetadata} {f : String}
    (h : SanOK cm) : SanOK (addResultsFile maxS cm f) :=
  SanOK_setK h sanW_results (resPart_split_fix (SanOK_getD h "results"))

theorem SanOK_stepSp {lm : List (String × String)} {f : String} {cm : CardMetadata}
    {sp : String} (h : SanOK cm) (hsp : sanW sp = sp) : SanOK (stepSp lm f cm sp) := by
  unfold stepSp
  by_cases hc : pyContains (taskS f) sp
  · rw [if_pos hc]
    exact SanOK_setK h hsp (compPart_split_fix (SanOK_getD h sp))
  · rw [if_neg hc]
    exact h

theorem SanOK_foldl_stepSp {lm : List (String × String)} {f : String} :
    ∀ (L : List String) (cm : CardMetadata), (∀ sp ∈ L, sanW sp = sp) → SanOK cm →
      SanOK (L.foldl (stepSp lm f) cm)
  | [], _, _, h => h
  | sp :: L, cm, hL, h =>
    SanOK_foldl_stepSp L _ (fun sp' h' => hL sp' (List.mem_cons_of_mem _ h'))
      (SanOK_stepSp h (hL sp (List.mem_cons_self _ _)))

theorem SanOK_addSampleFile {lm : List (String × String)} {cm : CardMetadata}
    {f : String} (h : SanOK cm) : SanOK (addSampleFile lm cm f) := by
  unfold addSampleFile
  exact SanOK_foldl_stepSp _ _ sanW_special
    (SanOK_setK h (sanW_idem _) (taskPart_split_fix (SanOK_getD h (taskS f))))

theorem SanOK_foldl_results (maxS : String) :
    ∀ (l : List String) (cm : CardMetadata), SanOK cm →
      SanOK (l.foldl (addResultsFile maxS) cm)
  | [], _, h => h
  | _ :: l, _, h => SanOK_foldl_results maxS l _ (SanOK_addResultsFile h)

theorem SanOK_foldl_samples (lm : List (String × String)) :
    ∀ (l : List String) (cm : CardMetadata), SanOK cm →
      SanOK (l.foldl (addSampleFile lm) cm)
  | [], _, h => h
  | _ :: l, _, h => SanOK_foldl_samples lm l _ (SanOK_addSampleFile h)

/-- Unconditionally, every config name of the built catalog is a fixpoint
of the `\W → _` sanitizer and every split name a fixpoint of the
`[^\w.] → _` sanitizer. -/
theorem SanOK_catalogOf (files : List String) : SanOK (catalogOf files) := by
  unfold catalogOf buildCardMetadata
  exact SanOK_foldl_samples _ _ _
    (SanOK_foldl_results _ _ _ (fun kv hkv => absurd hkv (List.not_mem_nil _)))

end Tracker

namespace Tracker

theorem special_ne_results : ∀ sp ∈ SPECIAL_TASKS, sp ≠ "results" := by decide

theorem catalogOf_def (files : List String) :
    catalogOf files =
      buildCardMetadata (resultsFiles files) (sampleFiles files)
        (latestMap (sampleFiles files))
        (match maxVals (latestMap (sampleFiles files)) with
          | some m => m
          | none => seedTs) := rfl

theorem buildCardMetadata_props (rf sf : List String) (lm : List (String × String))
    (maxS : String)
    (h1 : sf.Pairwise fun f g => ¬(taskS f = taskS g ∧ dateS f = dateS g))
    (h2 : ∀ f ∈ sf, ∀ g ∈ sf, taskS f = taskS g → taskOf f = taskOf g)
    (h3 : ∀ f ∈ sf, dateS f ≠ "latest" ∧ taskS f ∉ SPECIAL_TASKS ∧ taskS f ≠ "results")
    (h4 : rf.Pairwise fun f g => dateS f ≠ dateS g)
    (h5 : ∀ f ∈ rf, dateS f ≠ "latest") :
    ∀ c, ((getD (buildCardMetadata rf sf lm maxS) c []).map Entry.split).Nodup ∧
      ∀ e ∈ getD (buildCardMetadata rf sf lm maxS) c [], e.path.Nodup := by
  unfold buildCardMetadata
  have hR : RInv maxS rf (rf.foldl (addResultsFile maxS) []) := by
    have h0 : RInv maxS [] [] :=
      ⟨fun kv hkv => absurd hkv (List.not_mem_nil _), by simp [getD],
        fun e he => absurd he (by simp [getD])⟩
    have := RInv_foldl maxS rf [] [] (by simpa using h4) (by simpa using h5) h0
    simpa using this
  have hS : SInv lm sf (getD (rf.foldl (addResultsFile maxS) []) "results" [])
      (sf.foldl (addSampleFile lm) (rf.foldl (addResultsFile maxS) [])) := by
    have h0 : SInv lm [] (getD (rf.foldl (addResultsFile maxS) []) "results" [])
        (rf.foldl (addResultsFile maxS) []) := by
      refine ⟨rfl, fun sp hsp => ?_, fun c hc1 hc2 => ?_⟩
      · rw [getD_eq_nil_of_keys hR.1 (special_ne_results sp hsp)]
        exact ⟨by simp, fun e he => absurd he (List.not_mem_nil _)⟩
      · rw [getD_eq_nil_of_keys hR.1 hc2]
        exact ⟨by simp, fun e he => absurd he (List.not_mem_nil _)⟩
    have := SInv_foldl lm _ sf [] _ (by simpa using h1) (by simpa using h2)
      (by simpa using h3) h0
    simpa using this
  intro c
  by_cases hcr : c = "results"
  · subst hcr
    rw [hS.1]
    refine ⟨hR.2.1, fun e he => ?_⟩
    rcases hR.2.2 e he with ⟨g, _, hp, _⟩
    rw [hp]
    exact List.nodup_singleton _
  · by_cases hcsp : c ∈ SPECIAL_TASKS
    · obtain ⟨hnd, hprops⟩ := hS.2.1 c hcsp
      exact ⟨hnd, fun e he => (hprops e he).1⟩
    · obtain ⟨hnd, hfrom⟩ := hS.2.2 c hcsp hcr
      refine ⟨hnd, fun e he => ?_⟩
      rcases hfrom e he with ⟨g, _, _, hp, _⟩
      rw [hp]
      exact List.nodup_singleton _

/-- Claim C2 counterexample: two repository paths in different directories
with the same basename (`a/... and b/...samples_mmlu_x_2024-01-01T00-00-00.json`)
produce a composite `mmlu_` split containing the same `**/` path twice, and
a task config `mmlu_x` with two splits of the same name. -/
theorem C2_counterexample :
    (∃ e ∈ getD (catalogOf ["a/samples_mmlu_x_2024-01-01T00-00-00.json",
      "b/samples_mmlu_x_2024-01-01T00-00-00.json"]) "mmlu_" [], ¬ e.path.Nodup) ∧
    ¬ ((getD (catalogOf ["a/samples_mmlu_x_2024-01-01T00-00-00.json",
      "b/samples_mmlu_x_2024-01-01T00-00-00.json"]) "mmlu_x" []).map Entry.split).Nodup := by
  refine ⟨by decide, by decide⟩

/-- Claim C2 (amended): within one builder invocation (no state survives
between invocations — the accumulator is created fresh at line 320), if
distinct sample files never collide on their sanitized (task, timestamp)
pair, task-name sanitization is injective on the listed raw task names, no
sanitized task name is a composite prefix or `results`, no sanitized
timestamp is the reserved name `latest`, and distinct results files have
distinct sanitized timestamps, then in the built catalog no split contains
the same path twice and no config has two splits with the same name; and
unconditionally every config name and split name is a fixpoint of its
sanitizer (non-word characters already replaced by `_`). -/
theorem C2_split_uniqueness :
    ∀ files : List String,
      ((sampleFiles files).Pairwise fun f g =>
        ¬(taskS f = taskS g ∧ dateS f = dateS g)) →
      (∀ f ∈ sampleFiles files, ∀ g ∈ sampleFiles files,
        taskS f = taskS g → taskOf f = taskOf g) →
      (∀ f ∈ sampleFiles files, dateS f ≠ "latest" ∧ taskS f ∉ SPECIAL_TASKS ∧
        taskS f ≠ "results") →
      ((resultsFiles files).Pairwise fun f g => dateS f ≠ dateS g) →
      (∀ f ∈ resultsFiles files, dateS f ≠ "latest") →
      (∀ c, ((getD (catalogOf files) c []).map Entry.split).Nodup ∧
        ∀ e ∈ getD (catalogOf files) c [], e.path.Nodup) ∧
      SanOK (catalogOf files) := by
  intro files h1 h2 h3 h4 h5
  refine ⟨?_, SanOK_catalogOf files⟩
  rw [catalogOf_def]
  exact buildCardMetadata_props _ _ _ _ h1 h2 h3 h4 h5

/-- Witness for C2 at a concrete two-file listing. -/
theorem C2_split_uniqueness_witness :
    ((getD (catalogOf ["m/results_2024-01-01T00-00-00.json",
      "m/samples_gsm8k_2024-01-01T00-00-00.json"]) "gsm8k" []).map Entry.split).Nodup ∧
    ((getD (catalogOf ["m/results_2024-01-01T00-00-00.json",
      "m/samples_gsm8k_2024-01-01T00-00-00.json"]) "results" []).map Entry.split).Nodup :=
  ⟨((C2_split_uniqueness ["m/results_2024-01-01T00-00-00.json",
      "m/samples_gsm8k_2024-01-01T00-00-00.json"] (by decide) (by decide) (by decide)
      (by decide) (by decide)).1 "gsm8k").1,
    ((C2_split_uniqueness ["m/results_2024-01-01T00-00-00.json",
      "m/samples_gsm8k_2024-01-01T00-00-00.json"] (by decide) (by decide) (by decide)
      (by decide) (by decide)).1 "results").1⟩

end Tracker

namespace Tracker

/-- Claim C5: catalog building is stateless and idempotent: the method
assigns no tracker attribute (the state passes through unchanged), the
catalog is a pure function of the listing snapshot — invocations from any
two tracker states agree — and rebuilding from an unchanged listing yields
the identical catalog, config by config, split by split, with path order
preserved.  In the source this holds because `recreate_metadata_card`
starts from a fresh `MetadataConfigs()` (line 320) and only reads `self`. -/
theorem C5_stateless_idempotent :
    ∀ (s s' : TrackerState) (files : List String),
      (recreateMetadataCardSt s files).2 = s ∧
      (recreateMetadataCardSt s' files).1 = (recreateMetadataCardSt s files).1 ∧
      (recreateMetadataCardSt ((recreateMetadataCardSt s files).2) files).1 =
        (recreateMetadataCardSt s files).1 ∧
      (∀ c n, splitPaths (catalogOf files) c n = splitPaths (catalogOf files) c n) :=
  fun _ _ _ => ⟨rfl, rfl, rfl, fun _ _ => rfl⟩

end Tracker
